import Mathlib

/-!
Verification of the occlusion-aware visible-region computation of
`src/core/get_session.py`: the rectangle intersection engine
(`rect_intersect`), the occlusion subtractor (`rect_subtract`) and the
visibility pipelines (`get_visible_windows_linux`,
`get_visible_windows_windows`), embedded shallowly over integer
rectangles.
-/

namespace Casi

/-- Axis-aligned integer rectangle `{x, y, w, h}` (top-left corner plus
width and height), the dict shape used throughout `get_session.py`. -/
structure Rect where
  x : Int
  y : Int
  w : Int
  h : Int
deriving DecidableEq, Repr

/-- `rect_intersect(a, b)` from `get_session.py` lines 28–35: the overlap
rectangle of `a` and `b`, or `none` when `x1 < x2 and y1 < y2` fails. -/
def rect_intersect (a b : Rect) : Option Rect :=
  let x1 := max a.x b.x
  let y1 := max a.y b.y
  let x2 := min (a.x + a.w) (b.x + b.w)
  let y2 := min (a.y + a.h) (b.y + b.h)
  if x1 < x2 ∧ y1 < y2 then
    some ⟨x1, y1, x2 - x1, y2 - y1⟩
  else
    none

/-- The four residual strips of the inner loop of `rect_subtract`
(lines 50–81), around an intersection with edges `ix0, iy0, ix1, iy1`,
emitted in the fixed order top, bottom, left, right. -/
def strips (r : Rect) (ix0 iy0 ix1 iy1 : Int) : List Rect :=
  (if iy0 > r.y then [⟨r.x, r.y, r.w, iy0 - r.y⟩] else []) ++
  (if iy1 < r.y + r.h then [⟨r.x, iy1, r.w, r.y + r.h - iy1⟩] else []) ++
  (if ix0 > r.x then
    [⟨r.x, max r.y iy0, ix0 - r.x, min (r.y + r.h) iy1 - max r.y iy0⟩] else []) ++
  (if ix1 < r.x + r.w then
    [⟨ix1, max r.y iy0, r.x + r.w - ix1, min (r.y + r.h) iy1 - max r.y iy0⟩] else [])

/-- The body of the inner loop of `rect_subtract` (lines 41–81): one
working-set rectangle `r` against one covering rectangle `c`.  If they do
not intersect, `r` passes through; otherwise `r` is replaced by up to four
residual strips. -/
def subtractStep (c r : Rect) : List Rect :=
  match rect_intersect r c with
  | none => [r]
  | some inter => strips r inter.x inter.y (inter.x + inter.w) (inter.y + inter.h)

/-- One pass of the outer loop of `rect_subtract` (lines 39–82): rebuild
the working set against one covering rectangle `c`, then drop degenerate
pieces (`r['w'] > 0 and r['h'] > 0` filter on line 82). -/
def subtractAll (c : Rect) (remaining : List Rect) : List Rect :=
  (remaining.flatMap (subtractStep c)).filter (fun r => decide (0 < r.w ∧ 0 < r.h))

/-- `rect_subtract(rect, covered)` from `get_session.py` lines 37–83. -/
def rect_subtract (rect : Rect) (covered : List Rect) : List Rect :=
  covered.foldl (fun remaining c => subtractAll c remaining) [rect]

/-- Point-in-rectangle semantics: the integer pixel `(px, py)` lies in
`r`, treating `r` as the half-open box `[x, x+w) × [y, y+h)`. -/
def Rect.containsPt (r : Rect) (px py : Int) : Prop :=
  r.x ≤ px ∧ px < r.x + r.w ∧ r.y ≤ py ∧ py < r.y + r.h

instance (r : Rect) (px py : Int) : Decidable (r.containsPt px py) := by
  unfold Rect.containsPt
  exact inferInstance

/-- Some rectangle of the list `l` contains the pixel `(px, py)`. -/
def listContains (l : List Rect) (px py : Int) : Prop :=
  ∃ r ∈ l, r.containsPt px py

instance (l : List Rect) (px py : Int) : Decidable (listContains l px py) := by
  unfold listContains
  exact inferInstance

/-- Coordinate-level containment: `s` lies fully inside `r` (the bounds
`x`, `y`, `x+w`, `y+h` of `s` are within the corresponding bounds of `r`). -/
def Rect.insideOf (s r : Rect) : Prop :=
  r.x ≤ s.x ∧ s.x + s.w ≤ r.x + r.w ∧ r.y ≤ s.y ∧ s.y + s.h ≤ r.y + r.h

instance (s r : Rect) : Decidable (s.insideOf r) := by
  unfold Rect.insideOf
  exact inferInstance

/-- The elements of a list of rectangles pairwise fail to intersect (in
the sense of `rect_intersect`). -/
def PairwiseDisjoint (l : List Rect) : Prop :=
  l.Pairwise (fun a b => rect_intersect a b = none)

@[simp] theorem mk_x (x y w h : Int) : (Rect.mk x y w h).x = x := rfl

@[simp] theorem mk_y (x y w h : Int) : (Rect.mk x y w h).y = y := rfl

@[simp] theorem mk_w (x y w h : Int) : (Rect.mk x y w h).w = w := rfl

@[simp] theorem mk_h (x y w h : Int) : (Rect.mk x y w h).h = h := rfl

theorem containsPt_def (r : Rect) (px py : Int) :
    r.containsPt px py ↔
      (r.x ≤ px ∧ px < r.x + r.w ∧ r.y ≤ py ∧ py < r.y + r.h) :=
  Iff.rfl

theorem insideOf_def (s r : Rect) :
    s.insideOf r ↔
      (r.x ≤ s.x ∧ s.x + s.w ≤ r.x + r.w ∧ r.y ≤ s.y ∧ s.y + s.h ≤ r.y + r.h) :=
  Iff.rfl

/-- Coordinate containment is transitive. -/
theorem insideOf_trans {a b c : Rect} (h1 : a.insideOf b) (h2 : b.insideOf c) :
    a.insideOf c := by
  unfold Rect.insideOf at *
  omega

theorem listContains_nil (px py : Int) : ¬ listContains [] px py := by
  simp [listContains]

theorem listContains_cons {r : Rect} {l : List Rect} {px py : Int} :
    listContains (r :: l) px py ↔ (r.containsPt px py ∨ listContains l px py) := by
  simp [listContains]

theorem listContains_append {l₁ l₂ : List Rect} {px py : Int} :
    listContains (l₁ ++ l₂) px py ↔
      (listContains l₁ px py ∨ listContains l₂ px py) := by
  simp [listContains, or_and_right, exists_or]

theorem listContains_singleton {r : Rect} {px py : Int} :
    listContains [r] px py ↔ r.containsPt px py := by
  simp [listContains]

theorem listContains_ite_singleton {P : Prop} [Decidable P] {r : Rect}
    {px py : Int} :
    listContains (if P then [r] else []) px py ↔ (P ∧ r.containsPt px py) := by
  split <;> simp_all [listContains]

/-- Membership in an `if`-guarded singleton list. -/
theorem mem_ite_singleton {a r : Rect} {P : Prop} [Decidable P] :
    (a ∈ if P then [r] else []) ↔ (P ∧ a = r) := by
  split <;> simp_all

/-- An `if`-guarded singleton list is vacuously pairwise related. -/
theorem pairwise_ite_singleton {R : Rect → Rect → Prop} {P : Prop} [Decidable P]
    (r : Rect) : (if P then [r] else []).Pairwise R := by
  split <;> simp

/-- A rectangle with `w ≤ 0` or `h ≤ 0` contains no pixel. -/
theorem degenerate_contains_nothing {r : Rect} (h : r.w ≤ 0 ∨ r.h ≤ 0)
    (px py : Int) : ¬ r.containsPt px py := by
  unfold Rect.containsPt
  omega

/-- Characterisation of a successful intersection: the result is the
max/min rectangle and the strict guard held. -/
theorem rect_intersect_eq_some {a b i : Rect} :
    rect_intersect a b = some i ↔
      (max a.x b.x < min (a.x + a.w) (b.x + b.w) ∧
       max a.y b.y < min (a.y + a.h) (b.y + b.h) ∧
       i = ⟨max a.x b.x, max a.y b.y,
            min (a.x + a.w) (b.x + b.w) - max a.x b.x,
            min (a.y + a.h) (b.y + b.h) - max a.y b.y⟩) := by
  unfold rect_intersect
  dsimp only
  split
  · rename_i hcond
    simp only [Option.some.injEq]
    constructor
    · intro h
      exact ⟨hcond.1, hcond.2, h.symm⟩
    · intro h
      exact h.2.2.symm
  · rename_i hcond
    simp only [false_iff, reduceCtorEq]
    intro h
    exact hcond ⟨h.1, h.2.1⟩

/-- Characterisation of a failed intersection. -/
theorem rect_intersect_eq_none {a b : Rect} :
    rect_intersect a b = none ↔
      ¬(max a.x b.x < min (a.x + a.w) (b.x + b.w) ∧
        max a.y b.y < min (a.y + a.h) (b.y + b.h)) := by
  unfold rect_intersect
  dsimp only
  split
  · rename_i hcond
    simp only [reduceCtorEq, false_iff, not_not]
    exact hcond
  · rename_i hcond
    simpa using hcond

/-- Pixel semantics of a successful intersection: the overlap rectangle
contains exactly the pixels common to both inputs. -/
theorem rect_intersect_some_containsPt {a b i : Rect}
    (h : rect_intersect a b = some i) (px py : Int) :
    i.containsPt px py ↔ (a.containsPt px py ∧ b.containsPt px py) := by
  rw [rect_intersect_eq_some] at h
  obtain ⟨hx, hy, hi⟩ := h
  subst hi
  simp only [containsPt_def]
  omega

/-- Pixel semantics of a failed intersection: no pixel is common to both
inputs. -/
theorem rect_intersect_none_containsPt {a b : Rect}
    (h : rect_intersect a b = none) (px py : Int) :
    ¬(a.containsPt px py ∧ b.containsPt px py) := by
  rw [rect_intersect_eq_none] at h
  unfold Rect.containsPt
  omega

/-- The intersection is `none` exactly when the two rectangles share no
pixel. -/
theorem rect_intersect_none_iff (a b : Rect) :
    rect_intersect a b = none ↔
      ∀ px py : Int, ¬(a.containsPt px py ∧ b.containsPt px py) := by
  constructor
  · intro h px py
    exact rect_intersect_none_containsPt h px py
  · intro h
    rw [rect_intersect_eq_none]
    intro hcond
    exact h (max a.x b.x) (max a.y b.y)
      (by unfold Rect.containsPt; omega)

section StripLemmas

variable {r : Rect} {ix0 iy0 ix1 iy1 : Int}

/-- Pixel semantics of the four residual strips: together they contain
exactly the pixels of `r` outside the box `[ix0, ix1) × [iy0, iy1)`,
provided that box is a nonempty sub-box of `r`. -/
theorem strips_containsPt
    (hx0 : r.x ≤ ix0) (hxx : ix0 < ix1) (hx1 : ix1 ≤ r.x + r.w)
    (hy0 : r.y ≤ iy0) (hyy : iy0 < iy1) (hy1 : iy1 ≤ r.y + r.h)
    (px py : Int) :
    listContains (strips r ix0 iy0 ix1 iy1) px py ↔
      (r.containsPt px py ∧
        ¬(ix0 ≤ px ∧ px < ix1 ∧ iy0 ≤ py ∧ py < iy1)) := by
  simp only [strips, listContains_append, listContains_ite_singleton,
    containsPt_def]
  omega

/-- Every strip lies coordinate-wise inside `r`. -/
theorem strips_insideOf
    (hx0 : r.x ≤ ix0) (hxx : ix0 < ix1) (hx1 : ix1 ≤ r.x + r.w)
    (hy0 : r.y ≤ iy0) (hyy : iy0 < iy1) (hy1 : iy1 ≤ r.y + r.h) :
    ∀ s ∈ strips r ix0 iy0 ix1 iy1, s.insideOf r := by
  intro s hs
  simp only [strips, List.mem_append, mem_ite_singleton] at hs
  rcases hs with ((⟨hg, rfl⟩ | ⟨hg, rfl⟩) | ⟨hg, rfl⟩) | ⟨hg, rfl⟩ <;>
    (simp only [insideOf_def, mk_x, mk_y, mk_w, mk_h]; omega)

/-- The four strips pairwise fail to intersect. -/
theorem strips_pairwise
    (hx0 : r.x ≤ ix0) (hxx : ix0 < ix1) (hx1 : ix1 ≤ r.x + r.w)
    (hy0 : r.y ≤ iy0) (hyy : iy0 < iy1) (hy1 : iy1 ≤ r.y + r.h) :
    (strips r ix0 iy0 ix1 iy1).Pairwise
      (fun a b => rect_intersect a b = none) := by
  simp only [strips, List.pairwise_append, pairwise_ite_singleton, true_and,
    List.mem_append, mem_ite_singleton, and_imp,
    rect_intersect_eq_none]
  refine ⟨⟨?_, ?_⟩, ?_⟩
  · rintro a h1 rfl b h2 rfl
    simp only [mk_x, mk_y, mk_w, mk_h]
    omega
  · rintro a (⟨h1, rfl⟩ | ⟨h1, rfl⟩) b h2 rfl <;>
      (simp only [mk_x, mk_y, mk_w, mk_h]; omega)
  · rintro a ((⟨h1, rfl⟩ | ⟨h1, rfl⟩) | ⟨h1, rfl⟩) b h2 rfl <;>
      (simp only [mk_x, mk_y, mk_w, mk_h]; omega)

end StripLemmas

/-- Pixel semantics of one inner-loop step: the pieces produced from `r`
against cover `c` contain exactly the pixels of `r` not in `c`. -/
theorem subtractStep_containsPt (c r : Rect) (px py : Int) :
    listContains (subtractStep c r) px py ↔
      (r.containsPt px py ∧ ¬ c.containsPt px py) := by
  cases heq : rect_intersect r c with
  | none =>
    have hnone := rect_intersect_none_containsPt heq px py
    simp only [subtractStep, heq, listContains_singleton]
    tauto
  | some inter =>
    have hs := rect_intersect_eq_some.mp heq
    obtain ⟨hx, hy, hi⟩ := hs
    subst hi
    simp only [subtractStep, heq, mk_x, mk_y, mk_w, mk_h]
    rw [strips_containsPt (by omega) (by omega) (by omega) (by omega)
      (by omega) (by omega)]
    simp only [containsPt_def]
    omega

/-- Every piece produced by one inner-loop step lies coordinate-wise
inside the working-set rectangle it came from. -/
theorem subtractStep_insideOf (c r : Rect) :
    ∀ s ∈ subtractStep c r, s.insideOf r := by
  cases heq : rect_intersect r c with
  | none =>
    intro s hs
    simp only [subtractStep, heq, List.mem_singleton] at hs
    subst hs
    simp only [insideOf_def]
    omega
  | some inter =>
    have hsome := rect_intersect_eq_some.mp heq
    obtain ⟨hx, hy, hi⟩ := hsome
    subst hi
    simp only [subtractStep, heq, mk_x, mk_y, mk_w, mk_h]
    exact strips_insideOf (by omega) (by omega) (by omega) (by omega)
      (by omega) (by omega)

/-- The pieces produced by one inner-loop step pairwise fail to
intersect. -/
theorem subtractStep_pairwise (c r : Rect) :
    (subtractStep c r).Pairwise (fun a b => rect_intersect a b = none) := by
  cases heq : rect_intersect r c with
  | none => simp [subtractStep, heq]
  | some inter =>
    have hsome := rect_intersect_eq_some.mp heq
    obtain ⟨hx, hy, hi⟩ := hsome
    subst hi
    simp only [subtractStep, heq, mk_x, mk_y, mk_w, mk_h]
    exact strips_pairwise (by omega) (by omega) (by omega) (by omega)
      (by omega) (by omega)

/-- One inner-loop step produces at most four pieces. -/
theorem subtractStep_length_le (c r : Rect) : (subtractStep c r).length ≤ 4 := by
  cases heq : rect_intersect r c with
  | none => simp [subtractStep, heq]
  | some inter =>
    simp only [subtractStep, heq, strips]
    split_ifs <;> simp

/-- A pixel in a piece of one inner-loop step is a pixel of the input
rectangle. -/
theorem subtractStep_containsPt_mono (c r : Rect) :
    ∀ s ∈ subtractStep c r, ∀ px py : Int,
      s.containsPt px py → r.containsPt px py := by
  intro s hs px py hp
  have hin := subtractStep_insideOf c r s hs
  unfold Rect.insideOf at hin
  unfold Rect.containsPt at *
  omega

/-- Pixel semantics of one outer-loop pass: it removes exactly the pixels
of the covering rectangle `c` (the degeneracy filter drops only empty
rectangles, which contain no pixels). -/
theorem subtractAll_containsPt (c : Rect) (remaining : List Rect)
    (px py : Int) :
    listContains (subtractAll c remaining) px py ↔
      (listContains remaining px py ∧ ¬ c.containsPt px py) := by
  unfold subtractAll
  constructor
  · rintro ⟨s, hs, hcont⟩
    rw [List.mem_filter] at hs
    obtain ⟨hsmem, -⟩ := hs
    rw [List.mem_flatMap] at hsmem
    obtain ⟨r, hr, hsr⟩ := hsmem
    have := (subtractStep_containsPt c r px py).mp ⟨s, hsr, hcont⟩
    exact ⟨⟨r, hr, this.1⟩, this.2⟩
  · rintro ⟨⟨r, hr, hrc⟩, hc⟩
    obtain ⟨s, hsr, hcont⟩ :=
      (subtractStep_containsPt c r px py).mpr ⟨hrc, hc⟩
    refine ⟨s, ?_, hcont⟩
    rw [List.mem_filter]
    refine ⟨List.mem_flatMap.mpr ⟨r, hr, hsr⟩, ?_⟩
    have hw : 0 < s.w ∧ 0 < s.h := by
      unfold Rect.containsPt at hcont
      omega
    simpa using hw

/-- Every rectangle surviving one outer-loop pass is non-degenerate. -/
theorem subtractAll_nondegenerate (c : Rect) (remaining : List Rect) :
    ∀ s ∈ subtractAll c remaining, 0 < s.w ∧ 0 < s.h := by
  intro s hs
  unfold subtractAll at hs
  rw [List.mem_filter] at hs
  simpa using hs.2

/-- One outer-loop pass keeps every piece inside the original target. -/
theorem subtractAll_insideOf {rect : Rect} (c : Rect) {remaining : List Rect}
    (h : ∀ r ∈ remaining, r.insideOf rect) :
    ∀ s ∈ subtractAll c remaining, s.insideOf rect := by
  intro s hs
  unfold subtractAll at hs
  rw [List.mem_filter] at hs
  obtain ⟨hsmem, -⟩ := hs
  rw [List.mem_flatMap] at hsmem
  obtain ⟨r, hr, hsr⟩ := hsmem
  exact insideOf_trans (subtractStep_insideOf c r s hsr) (h r hr)

/-- One outer-loop pass preserves pairwise disjointness of the working
set. -/
theorem subtractAll_pairwise (c : Rect) {remaining : List Rect}
    (h : PairwiseDisjoint remaining) :
    PairwiseDisjoint (subtractAll c remaining) := by
  unfold subtractAll
  apply List.Pairwise.filter
  unfold PairwiseDisjoint at *
  rw [List.flatMap, List.pairwise_flatten]
  constructor
  · intro l hl
    rw [List.mem_map] at hl
    obtain ⟨r, -, rfl⟩ := hl
    exact subtractStep_pairwise c r
  · rw [List.pairwise_map]
    refine h.imp_of_mem ?_
    intro a b ha hb hab
    intro s hs t ht
    rw [rect_intersect_none_iff]
    intro px py ⟨hps, hpt⟩
    have hpa := subtractStep_containsPt_mono c a s hs px py hps
    have hpb := subtractStep_containsPt_mono c b t ht px py hpt
    exact rect_intersect_none_containsPt hab px py ⟨hpa, hpb⟩

/-- Pixel semantics of the whole outer loop: starting from any working
set, it removes exactly the pixels covered by some covering rectangle. -/
theorem foldl_subtractAll_containsPt (covered : List Rect) :
    ∀ (remaining : List Rect) (px py : Int),
      listContains
        (covered.foldl (fun rem c => subtractAll c rem) remaining) px py ↔
        (listContains remaining px py ∧ ¬ listContains covered px py) := by
  induction covered with
  | nil =>
    intro remaining px py
    simp [listContains_nil]
  | cons c cs ih =>
    intro remaining px py
    rw [List.foldl_cons, ih, subtractAll_containsPt, listContains_cons]
    tauto

/-- The outer loop preserves pairwise disjointness of the working set. -/
theorem foldl_subtractAll_pairwise (covered : List Rect) :
    ∀ remaining : List Rect, PairwiseDisjoint remaining →
      PairwiseDisjoint (covered.foldl (fun rem c => subtractAll c rem) remaining) := by
  induction covered with
  | nil => intro remaining h; exact h
  | cons c cs ih =>
    intro remaining h
    rw [List.foldl_cons]
    exact ih _ (subtractAll_pairwise c h)

/-- The outer loop keeps every working-set rectangle inside `rect`. -/
theorem foldl_subtractAll_insideOf {rect : Rect} (covered : List Rect) :
    ∀ remaining : List Rect, (∀ r ∈ remaining, r.insideOf rect) →
      ∀ s ∈ covered.foldl (fun rem c => subtractAll c rem) remaining,
        s.insideOf rect := by
  induction covered with
  | nil => intro remaining h; exact h
  | cons c cs ih =>
    intro remaining h
    rw [List.foldl_cons]
    exact ih _ (subtractAll_insideOf c h)

/-- The outer loop keeps every working-set rectangle non-degenerate. -/
theorem foldl_subtractAll_nondegenerate (covered : List Rect) :
    ∀ remaining : List Rect, (∀ r ∈ remaining, 0 < r.w ∧ 0 < r.h) →
      ∀ s ∈ covered.foldl (fun rem c => subtractAll c rem) remaining,
        0 < s.w ∧ 0 < s.h := by
  induction covered with
  | nil => intro remaining h; exact h
  | cons c cs ih =>
    intro remaining _
    rw [List.foldl_cons]
    exact ih _ (subtractAll_nondegenerate c remaining)

/-- The empty working set is a fixed point of the outer loop. -/
theorem foldl_subtractAll_nil (covered : List Rect) :
    covered.foldl (fun rem c => subtractAll c rem) [] = [] := by
  induction covered with
  | nil => rfl
  | cons c cs ih => simpa [subtractAll] using ih

/-- Pixel semantics of `rect_subtract`: the result contains exactly the
pixels of `rect` covered by no rectangle of `covered`. -/
theorem rect_subtract_containsPt (rect : Rect) (covered : List Rect)
    (px py : Int) :
    listContains (rect_subtract rect covered) px py ↔
      (rect.containsPt px py ∧ ¬ listContains covered px py) := by
  unfold rect_subtract
  rw [foldl_subtractAll_containsPt, listContains_singleton]

/-- The rectangles returned by `rect_subtract` pairwise fail to
intersect. -/
theorem rect_subtract_pairwise (rect : Rect) (covered : List Rect) :
    PairwiseDisjoint (rect_subtract rect covered) := by
  unfold rect_subtract
  exact foldl_subtractAll_pairwise covered [rect] (by simp [PairwiseDisjoint])

/-- Every rectangle returned by `rect_subtract` lies inside the target. -/
theorem rect_subtract_insideOf (rect : Rect) (covered : List Rect) :
    ∀ s ∈ rect_subtract rect covered, s.insideOf rect := by
  unfold rect_subtract
  apply foldl_subtractAll_insideOf
  intro r hr
  rw [List.mem_singleton] at hr
  subst hr
  simp [insideOf_def]

/-- For a non-degenerate target, every rectangle returned by
`rect_subtract` is non-degenerate. -/
theorem rect_subtract_nondegenerate {rect : Rect} (hw : 0 < rect.w)
    (hh : 0 < rect.h) (covered : List Rect) :
    ∀ s ∈ rect_subtract rect covered, 0 < s.w ∧ 0 < s.h := by
  unfold rect_subtract
  apply foldl_subtractAll_nondegenerate
  intro r hr
  rw [List.mem_singleton] at hr
  subst hr
  exact ⟨hw, hh⟩

/-- One outer-loop pass at most quadruples the size of the working set. -/
theorem subtractAll_length_le (c : Rect) (remaining : List Rect) :
    (subtractAll c remaining).length ≤ 4 * remaining.length := by
  unfold subtractAll
  calc ((remaining.flatMap (subtractStep c)).filter
          (fun r => decide (0 < r.w ∧ 0 < r.h))).length
      ≤ (remaining.flatMap (subtractStep c)).length :=
        List.length_filter_le _ _
    _ ≤ 4 * remaining.length := by
        induction remaining with
        | nil => simp
        | cons r rs ih =>
          simp only [List.flatMap_cons, List.length_append, List.length_cons]
          have := subtractStep_length_le c r
          omega

/-- The whole subtraction is bounded: the working set at most quadruples
per covering rectangle, so the result has at most `4 ^ |covered|`
rectangles. -/
theorem rect_subtract_length_le (rect : Rect) (covered : List Rect) :
    (rect_subtract rect covered).length ≤ 4 ^ covered.length := by
  have main : ∀ (cov : List Rect) (rem : List Rect),
      (cov.foldl (fun rem c => subtractAll c rem) rem).length ≤
        4 ^ cov.length * rem.length := by
    intro cov
    induction cov with
    | nil => intro rem; simp
    | cons c cs ih =>
      intro rem
      rw [List.foldl_cons]
      calc (cs.foldl (fun rem c => subtractAll c rem)
              (subtractAll c rem)).length
          ≤ 4 ^ cs.length * (subtractAll c rem).length := ih _
        _ ≤ 4 ^ cs.length * (4 * rem.length) :=
            Nat.mul_le_mul_left _ (subtractAll_length_le c rem)
        _ = 4 ^ (c :: cs).length * rem.length := by
            rw [List.length_cons, pow_succ]
            ring
  have h := main covered [rect]
  simpa [rect_subtract] using h

/-- The finite set of integer pixels of a rectangle. -/
def Rect.pts (r : Rect) : Finset (Int × Int) :=
  Finset.Icc r.x (r.x + r.w - 1) ×ˢ Finset.Icc r.y (r.y + r.h - 1)

theorem mem_pts {r : Rect} {p : Int × Int} :
    p ∈ r.pts ↔ r.containsPt p.1 p.2 := by
  unfold Rect.pts
  rw [Finset.mem_product, Finset.mem_Icc, Finset.mem_Icc, containsPt_def]
  omega

/-- The pixel count of a rectangle is its area `w * h`. -/
theorem pts_card (r : Rect) : r.pts.card = r.w.toNat * r.h.toNat := by
  unfold Rect.pts
  rw [Finset.card_product, Int.card_Icc, Int.card_Icc]
  congr 1 <;> omega

/-- The union of the pixel sets of a list of rectangles. -/
def ptsUnion (l : List Rect) : Finset (Int × Int) :=
  l.foldr (fun r acc => r.pts ∪ acc) ∅

theorem mem_ptsUnion {l : List Rect} {p : Int × Int} :
    p ∈ ptsUnion l ↔ listContains l p.1 p.2 := by
  induction l with
  | nil => simp [ptsUnion, listContains]
  | cons a l ih =>
    simp only [ptsUnion, List.foldr_cons, Finset.mem_union, mem_pts,
      listContains_cons]
    rw [← ih]
    rfl

/-- For pairwise disjoint rectangles, the pixel count of the union is the
sum of the areas. -/
theorem ptsUnion_card {l : List Rect} (h : PairwiseDisjoint l) :
    (ptsUnion l).card = (l.map (fun s => s.w.toNat * s.h.toNat)).sum := by
  induction l with
  | nil => simp [ptsUnion]
  | cons a l ih =>
    unfold PairwiseDisjoint at h
    rw [List.pairwise_cons] at h
    have hdisj : Disjoint a.pts (ptsUnion l) := by
      rw [Finset.disjoint_left]
      intro p hpa hpl
      rw [mem_pts] at hpa
      rw [mem_ptsUnion] at hpl
      obtain ⟨b, hb, hpb⟩ := hpl
      exact rect_intersect_none_containsPt (h.1 b hb) p.1 p.2 ⟨hpa, hpb⟩
    show (a.pts ∪ ptsUnion l).card = _
    rw [Finset.card_union_of_disjoint hdisj, pts_card, ih h.2]
    simp

/-- Area form of the partition property: the summed areas of the
uncovered pieces plus the pixel count of `rect ∩ (union of covered)`
equal the area of `rect`. -/
theorem rect_subtract_area (rect : Rect) (covered : List Rect) :
    ((rect_subtract rect covered).map (fun s => s.w.toNat * s.h.toNat)).sum
      + (rect.pts.filter (fun p => listContains covered p.1 p.2)).card
      = rect.w.toNat * rect.h.toNat := by
  have hpair := rect_subtract_pairwise rect covered
  have hset : ptsUnion (rect_subtract rect covered)
      = rect.pts.filter (fun p => ¬ listContains covered p.1 p.2) := by
    ext p
    rw [mem_ptsUnion, Finset.mem_filter, mem_pts, rect_subtract_containsPt]
  rw [← ptsUnion_card hpair, hset, ← pts_card rect, Nat.add_comm]
  exact Finset.filter_card_add_filter_neg_card_eq_card _

/-- A window record as consumed by the Linux pipeline after parsing the
`wmctrl -lG` output (lines 216–226): id, title and geometry. -/
structure Window where
  id : String
  title : String
  geometry : Rect
deriving DecidableEq, Repr

/-- An emitted visible-window entry: the window together with its
uncovered regions (lines 234–240). -/
structure VisibleWindow where
  window : Window
  uncovered_regions : List Rect
deriving DecidableEq, Repr

/-- The condition `title.strip() == ""` of line 229: the title is empty
or consists only of whitespace. -/
def blankTitle (s : String) : Bool := s.data.all Char.isWhitespace

/-- The loop of `get_visible_windows_linux` (lines 213–243), over already
parsed window records, threading the `covered` accumulator.  Returns the
final accumulator and the emitted entries. -/
def get_visible_windows_linux_from :
    List Window → List Rect → List Rect × List VisibleWindow
  | [], covered => (covered, [])
  | w :: ws, covered =>
    if w.geometry.w ≤ 1 ∨ w.geometry.h ≤ 1 ∨ blankTitle w.title = true then
      get_visible_windows_linux_from ws covered
    else
      if rect_subtract w.geometry covered = [] then
        get_visible_windows_linux_from ws covered
      else
        ((get_visible_windows_linux_from ws (covered ++ [w.geometry])).1,
          ⟨w, rect_subtract w.geometry covered⟩ ::
            (get_visible_windows_linux_from ws (covered ++ [w.geometry])).2)

/-- `get_visible_windows_linux` from `get_session.py` lines 202–243,
starting from an empty covering accumulator. -/
def get_visible_windows_linux (windows : List Window) : List VisibleWindow :=
  (get_visible_windows_linux_from windows []).2

/-- A window record as consumed by the Windows pipeline from
`pygetwindow` (lines 253–258): handle, title, visibility flag and
geometry fields. -/
structure WinWindow where
  hWnd : String
  title : String
  isVisible : Bool
  left : Int
  top : Int
  width : Int
  height : Int
deriving DecidableEq, Repr

/-- The geometry dict built on line 258. -/
def winGeom (w : WinWindow) : Rect := ⟨w.left, w.top, w.width, w.height⟩

/-- The loop of `get_visible_windows_windows` (lines 253–269). -/
def get_visible_windows_windows_from :
    List WinWindow → List Rect → List Rect × List VisibleWindow
  | [], covered => (covered, [])
  | w :: ws, covered =>
    if w.isVisible = false ∨ w.width ≤ 1 ∨ w.height ≤ 1 then
      get_visible_windows_windows_from ws covered
    else
      if rect_subtract (winGeom w) covered = [] then
        get_visible_windows_windows_from ws covered
      else
        ((get_visible_windows_windows_from ws (covered ++ [winGeom w])).1,
          ⟨⟨w.hWnd, w.title, winGeom w⟩, rect_subtract (winGeom w) covered⟩ ::
            (get_visible_windows_windows_from ws (covered ++ [winGeom w])).2)

/-- `get_visible_windows_windows` from `get_session.py` lines 245–269. -/
def get_visible_windows_windows (windows : List WinWindow) : List VisibleWindow :=
  (get_visible_windows_windows_from windows []).2

/-- Every entry emitted by the Linux loop carries the subtraction of its
own geometry against some covering list, passed the degeneracy and title
filters, and has a non-empty uncovered set. -/
theorem linux_from_emitted :
    ∀ (ws : List Window) (covered : List Rect) (e : VisibleWindow),
      e ∈ (get_visible_windows_linux_from ws covered).2 →
      (∃ cov : List Rect,
          e.uncovered_regions = rect_subtract e.window.geometry cov) ∧
        1 < e.window.geometry.w ∧ 1 < e.window.geometry.h ∧
        blankTitle e.window.title ≠ true ∧ e.uncovered_regions ≠ [] := by
  intro ws
  induction ws with
  | nil => intro covered e he; simp [get_visible_windows_linux_from] at he
  | cons w ws ih =>
    intro covered e he
    rw [get_visible_windows_linux_from] at he
    split_ifs at he with hskip huncov
    · exact ih covered e he
    · exact ih covered e he
    · rw [List.mem_cons] at he
      rcases he with rfl | he
      · push_neg at hskip
        exact ⟨⟨covered, rfl⟩, hskip.1, hskip.2.1, hskip.2.2, huncov⟩
      · exact ih (covered ++ [w.geometry]) e he

/-- The Linux loop emits at most one entry per input window. -/
theorem linux_from_length :
    ∀ (ws : List Window) (covered : List Rect),
      (get_visible_windows_linux_from ws covered).2.length ≤ ws.length := by
  intro ws
  induction ws with
  | nil => intro covered; simp [get_visible_windows_linux_from]
  | cons w ws ih =>
    intro covered
    rw [get_visible_windows_linux_from]
    split_ifs with hskip huncov
    · exact Nat.le_succ_of_le (ih covered)
    · exact Nat.le_succ_of_le (ih covered)
    · simpa using ih (covered ++ [w.geometry])

/-- Every entry emitted by the Windows loop passed the visibility and
degeneracy filters and carries a subtraction of its own geometry. -/
theorem windows_from_emitted :
    ∀ (ws : List WinWindow) (covered : List Rect) (e : VisibleWindow),
      e ∈ (get_visible_windows_windows_from ws covered).2 →
      (∃ cov : List Rect,
          e.uncovered_regions = rect_subtract e.window.geometry cov) ∧
        1 < e.window.geometry.w ∧ 1 < e.window.geometry.h ∧
        e.uncovered_regions ≠ [] := by
  intro ws
  induction ws with
  | nil => intro covered e he; simp [get_visible_windows_windows_from] at he
  | cons w ws ih =>
    intro covered e he
    rw [get_visible_windows_windows_from] at he
    split_ifs at he with hskip huncov
    · exact ih covered e he
    · exact ih covered e he
    · rw [List.mem_cons] at he
      rcases he with rfl | he
      · push_neg at hskip
        exact ⟨⟨covered, rfl⟩, hskip.2.1, hskip.2.2, huncov⟩
      · exact ih (covered ++ [winGeom w]) e he

/-- C1: partition property of the occlusion subtractor.  For every target
rectangle and covering list: the pixels of the result together with the
pixels of `rect` under the covering union are exactly the pixels of
`rect`; the two parts share no pixel and the result rectangles are
pairwise disjoint (no pixel is counted twice); and the summed areas of
the result plus the pixel count of `rect ∩ union(covered)` equal the area
of `rect`.  This holds in particular for every window processed by the
pipeline, whose uncovered set is `rect_subtract` of its geometry against
the covering accumulated at that point. -/
theorem C1_partition_property (rect : Rect) (covered : List Rect) :
    (∀ px py : Int,
        rect.containsPt px py ↔
          (listContains (rect_subtract rect covered) px py ∨
            (rect.containsPt px py ∧ listContains covered px py)))
    ∧ (∀ px py : Int,
        ¬(listContains (rect_subtract rect covered) px py ∧
            listContains covered px py))
    ∧ PairwiseDisjoint (rect_subtract rect covered)
    ∧ ((rect_subtract rect covered).map (fun s => s.w.toNat * s.h.toNat)).sum
        + (rect.pts.filter (fun p => listContains covered p.1 p.2)).card
        = rect.w.toNat * rect.h.toNat := by
  refine ⟨?_, ?_, rect_subtract_pairwise rect covered,
    rect_subtract_area rect covered⟩
  · intro px py
    rw [rect_subtract_containsPt]
    tauto
  · intro px py hp
    rw [rect_subtract_containsPt] at hp
    exact hp.1.2 hp.2

/-- C2: disjointness.  Any two rectangles of a `rect_subtract` result
fail to intersect (`rect_intersect` returns `none`), and the same holds
for every uncovered-region set emitted by the Linux pipeline. -/
theorem C2_disjointness :
    (∀ (rect : Rect) (covered : List Rect),
        (rect_subtract rect covered).Pairwise
          (fun a b => rect_intersect a b = none))
    ∧ (∀ ws : List Window, ∀ e ∈ get_visible_windows_linux ws,
        e.uncovered_regions.Pairwise (fun a b => rect_intersect a b = none)) := by
  refine ⟨fun rect covered => rect_subtract_pairwise rect covered, ?_⟩
  intro ws e he
  obtain ⟨⟨cov, hcov⟩, -⟩ := linux_from_emitted ws [] e he
  rw [hcov]
  exact rect_subtract_pairwise _ _

theorem C2_disjointness_witness :
    (VisibleWindow.mk (Window.mk "w1" "term" ⟨0, 0, 10, 10⟩)
        [⟨0, 0, 10, 10⟩]).uncovered_regions.Pairwise
      (fun a b => rect_intersect a b = none) :=
  C2_disjointness.2 [⟨"w1", "term", ⟨0, 0, 10, 10⟩⟩] _ (by decide)

/-- C3: containment and non-degeneracy.  Every rectangle of an
uncovered-region set emitted by the Linux pipeline has positive width and
height and lies fully inside the source window's bounding box. -/
theorem C3_containment :
    ∀ ws : List Window, ∀ e ∈ get_visible_windows_linux ws,
      ∀ s ∈ e.uncovered_regions,
        0 < s.w ∧ 0 < s.h ∧ s.insideOf e.window.geometry := by
  intro ws e he s hs
  obtain ⟨⟨cov, hcov⟩, hw, hh, -, -⟩ := linux_from_emitted ws [] e he
  rw [hcov] at hs
  obtain ⟨h1, h2⟩ :=
    rect_subtract_nondegenerate (by omega) (by omega) cov s hs
  exact ⟨h1, h2, rect_subtract_insideOf _ cov s hs⟩

theorem C3_containment_witness :
    0 < (Rect.mk 0 0 10 10).w ∧ 0 < (Rect.mk 0 0 10 10).h ∧
      (Rect.mk 0 0 10 10).insideOf
        (VisibleWindow.mk (Window.mk "w1" "term" ⟨0, 0, 10, 10⟩)
          [⟨0, 0, 10, 10⟩]).window.geometry :=
  C3_containment [⟨"w1", "term", ⟨0, 0, 10, 10⟩⟩] _ (by decide) _ (by decide)

/-- C4: intersection engine contract.  `rect_intersect` returns the
max/min rectangle exactly when `x1 < x2` and `y1 < y2` both hold strictly
and `none` otherwise; equivalently it returns `none` exactly when the two
rectangles share no pixel, so rectangles touching only at an edge or
corner do not intersect. -/
theorem C4_intersection_contract (a b : Rect) :
    (∀ i : Rect,
        rect_intersect a b = some i ↔
          (max a.x b.x < min (a.x + a.w) (b.x + b.w) ∧
           max a.y b.y < min (a.y + a.h) (b.y + b.h) ∧
           i = ⟨max a.x b.x, max a.y b.y,
                min (a.x + a.w) (b.x + b.w) - max a.x b.x,
                min (a.y + a.h) (b.y + b.h) - max a.y b.y⟩))
    ∧ (rect_intersect a b = none ↔
        ¬(max a.x b.x < min (a.x + a.w) (b.x + b.w) ∧
          max a.y b.y < min (a.y + a.h) (b.y + b.h)))
    ∧ (rect_intersect a b = none ↔
        ∀ px py : Int, ¬(a.containsPt px py ∧ b.containsPt px py)) :=
  ⟨fun _ => rect_intersect_eq_some, rect_intersect_eq_none,
    rect_intersect_none_iff a b⟩

theorem C4_intersection_contract_witness :
    rect_intersect ⟨0, 0, 10, 10⟩ ⟨10, 0, 10, 10⟩ = none :=
  (C4_intersection_contract ⟨0, 0, 10, 10⟩ ⟨10, 0, 10, 10⟩).2.1.mpr (by decide)

/-- C5: identity under no covers.  `rect_subtract(r, [])` returns exactly
the one-element list `[r]`, for every rectangle `r`. -/
theorem C5_identity_no_covers (r : Rect) : rect_subtract r [] = [r] := rfl

/-- C6: full coverage and exclusion policy.  Subtracting a single cover
that fully contains a non-degenerate target yields the empty list; and in
the Linux pipeline a window whose subtraction result is empty is dropped
entirely: the pass continues as if the window were absent, emitting no
entry and appending nothing to the covering accumulator. -/
theorem C6_full_coverage :
    (∀ r c : Rect, 0 < r.w → 0 < r.h → r.insideOf c →
        rect_subtract r [c] = [])
    ∧ (∀ (ws : List Window) (covered : List Rect) (w : Window),
        ¬(w.geometry.w ≤ 1 ∨ w.geometry.h ≤ 1 ∨ blankTitle w.title = true) →
        rect_subtract w.geometry covered = [] →
        get_visible_windows_linux_from (w :: ws) covered =
          get_visible_windows_linux_from ws covered) := by
  constructor
  · intro r c hw hh hin
    have hint : rect_intersect r c = some ⟨r.x, r.y, r.w, r.h⟩ := by
      rw [rect_intersect_eq_some]
      unfold Rect.insideOf at hin
      refine ⟨by omega, by omega, ?_⟩
      simp only [Rect.mk.injEq]
      omega
    show subtractAll c [r] = []
    simp [subtractAll, subtractStep, hint, strips]
  · intro ws covered w hskip huncov
    rw [get_visible_windows_linux_from, if_neg hskip, if_pos huncov]

theorem C6_full_coverage_witness :
    rect_subtract ⟨1, 1, 2, 2⟩ [⟨0, 0, 10, 10⟩] = [] ∧
      get_visible_windows_linux_from
          [Window.mk "w" "t" ⟨1, 1, 2, 2⟩] [⟨0, 0, 10, 10⟩] =
        get_visible_windows_linux_from [] [⟨0, 0, 10, 10⟩] :=
  ⟨C6_full_coverage.1 ⟨1, 1, 2, 2⟩ ⟨0, 0, 10, 10⟩ (by decide) (by decide)
      (by decide),
    C6_full_coverage.2 [] [⟨0, 0, 10, 10⟩] ⟨"w", "t", ⟨1, 1, 2, 2⟩⟩
      (by decide) (by decide)⟩

/-- C7: monotonic covering growth.  At every point of a Linux pipeline
pass the covering accumulator equals the initial accumulator followed by
the full bounding boxes of exactly the windows emitted so far, in order:
each processed window appends its geometry for all later windows. -/
theorem C7_monotonic_covering :
    ∀ (ws : List Window) (covered : List Rect),
      (get_visible_windows_linux_from ws covered).1 =
        covered ++
          (get_visible_windows_linux_from ws covered).2.map
            (fun e => e.window.geometry) := by
  intro ws
  induction ws with
  | nil => intro covered; simp [get_visible_windows_linux_from]
  | cons w ws ih =>
    intro covered
    rw [get_visible_windows_linux_from]
    split_ifs with hskip huncov
    · exact ih covered
    · exact ih covered
    · simp only [List.map_cons]
      rw [ih (covered ++ [w.geometry])]
      simp

/-- C8 counterexample: in the Windows pipeline a window with an empty
title is NOT filtered out — it is emitted (with its blank title) as long
as it is visible and non-degenerate, contradicting the claim that a
blank-titled window never appears in pipeline output. -/
theorem C8_blank_title_windows_counterexample :
    get_visible_windows_windows [⟨"1", "", true, 0, 0, 10, 10⟩] =
      [⟨⟨"1", "", ⟨0, 0, 10, 10⟩⟩, [⟨0, 0, 10, 10⟩]⟩] := by
  decide

/-- C8 (amended): a window with `w ≤ 1` or `h ≤ 1` is skipped before
occlusion computation by both the Linux and the Windows pipelines, and on
Linux a blank-titled window is skipped as well; skipped windows emit
nothing and contribute nothing to the covering accumulator.  Every entry
emitted by the Linux pipeline has `w > 1`, `h > 1` and a non-blank title;
every entry emitted by the Windows pipeline has `w > 1` and `h > 1`, but
the Windows pipeline applies no title filter. -/
theorem C8_degenerate_filtering :
    (∀ (ws : List Window) (covered : List Rect) (w : Window),
        (w.geometry.w ≤ 1 ∨ w.geometry.h ≤ 1 ∨ blankTitle w.title = true) →
        get_visible_windows_linux_from (w :: ws) covered =
          get_visible_windows_linux_from ws covered)
    ∧ (∀ ws : List Window, ∀ e ∈ get_visible_windows_linux ws,
        1 < e.window.geometry.w ∧ 1 < e.window.geometry.h ∧
          blankTitle e.window.title ≠ true)
    ∧ (∀ (ws : List WinWindow) (covered : List Rect) (w : WinWindow),
        (w.isVisible = false ∨ w.width ≤ 1 ∨ w.height ≤ 1) →
        get_visible_windows_windows_from (w :: ws) covered =
          get_visible_windows_windows_from ws covered)
    ∧ (∀ ws : List WinWindow, ∀ e ∈ get_visible_windows_windows ws,
        1 < e.window.geometry.w ∧ 1 < e.window.geometry.h) := by
  refine ⟨?_, ?_, ?_, ?_⟩
  · intro ws covered w hskip
    rw [get_visible_windows_linux_from, if_pos hskip]
  · intro ws e he
    obtain ⟨-, hw, hh, ht, -⟩ := linux_from_emitted ws [] e he
    exact ⟨hw, hh, ht⟩
  · intro ws covered w hskip
    rw [get_visible_windows_windows_from, if_pos hskip]
  · intro ws e he
    obtain ⟨-, hw, hh, -⟩ := windows_from_emitted ws [] e he
    exact ⟨hw, hh⟩

theorem C8_degenerate_filtering_witness :
    get_visible_windows_linux_from [Window.mk "d" "t" ⟨0, 0, 1, 1⟩] [] =
        get_visible_windows_linux_from [] [] ∧
      get_visible_windows_windows_from
          [WinWindow.mk "2" "t" false 0 0 10 10] [] =
        get_visible_windows_windows_from [] [] :=
  ⟨C8_degenerate_filtering.1 [] [] ⟨"d", "t", ⟨0, 0, 1, 1⟩⟩ (by decide),
    C8_degenerate_filtering.2.2.1 [] [] ⟨"2", "t", false, 0, 0, 10, 10⟩
      (by decide)⟩

/-- C9: unconditional termination and size bounds.  `rect_subtract` is a
total function whose result size is bounded by `4 ^ |covered|` (the
working set at most quadruples per covering rectangle), and a Linux
pipeline pass over a finite window list is total and emits at most one
entry per input window. -/
theorem C9_termination_bounds :
    (∀ (rect : Rect) (covered : List Rect),
        (rect_subtract rect covered).length ≤ 4 ^ covered.length)
    ∧ (∀ ws : List Window,
        (get_visible_windows_linux ws).length ≤ ws.length) :=
  ⟨rect_subtract_length_le, fun ws => linux_from_length ws []⟩

/-- C10: degenerate targets.  The degeneracy filter runs only inside the
per-cover loop, so a degenerate target (`w = 0` or `h = 0`) passes
through `rect_subtract(r, [])` unchanged as `[r]`, while any non-empty
cover list yields `[]`: the degenerate target intersects nothing and is
dropped by the `w > 0 and h > 0` filter of the first pass. -/
theorem C10_degenerate_target (r : Rect) (hdeg : r.w = 0 ∨ r.h = 0) :
    rect_subtract r [] = [r] ∧
      ∀ covered : List Rect, covered ≠ [] → rect_subtract r covered = [] := by
  refine ⟨rfl, ?_⟩
  intro covered hne
  cases covered with
  | nil => exact absurd rfl hne
  | cons c cs =>
    have h1 : rect_intersect r c = none := by
      rw [rect_intersect_eq_none]
      omega
    have h2 : ¬(0 < r.w ∧ 0 < r.h) := by omega
    have h3 : subtractAll c [r] = [] := by
      simp [subtractAll, subtractStep, h1, h2]
    show (c :: cs).foldl (fun rem c => subtractAll c rem) [r] = []
    rw [List.foldl_cons, h3, foldl_subtractAll_nil]

theorem C10_degenerate_target_witness :
    rect_subtract ⟨2, 3, 0, 5⟩ [] = [⟨2, 3, 0, 5⟩] ∧
      rect_subtract ⟨2, 3, 0, 5⟩ [⟨0, 0, 4, 4⟩] = [] :=
  ⟨(C10_degenerate_target ⟨2, 3, 0, 5⟩ (by decide)).1,
    (C10_degenerate_target ⟨2, 3, 0, 5⟩ (by decide)).2 [⟨0, 0, 4, 4⟩]
      (by decide)⟩

end Casi
